import Mathlib

/-!
Shallow embedding of the query/ranking and result-selection core of the
`rufi` launcher (src/search_mode.rs, src/app_search.rs, src/file_search.rs,
src/system_commands.rs, src/ui.rs), together with theorems settling the
spec's claims about it.

The external fuzzy matcher (`SkimMatcherV2.fuzzy_match`, a third-party
crate) is kept abstract as a parameter `m : Matcher`; every definition
threads it exactly where the source calls `fuzzy_match`.  Filesystem
contents are modelled as explicit trees of entries, and the shuffling of
the empty-query app list as an explicit function parameter.
-/

/-- search_mode.rs: `enum SearchMode { Apps, Files, Run }`. -/
inductive SearchMode where
  | Apps
  | Files
  | Run
deriving DecidableEq, Repr

/-- search_mode.rs: `struct SearchResult { name, path, result_type }`. -/
structure SearchResult where
  name : String
  path : String
  result_type : SearchMode
deriving DecidableEq, Repr

/-- app_search.rs: `struct Application { name, path, is_action, command }`. -/
structure Application where
  name : String
  path : String
  is_action : Bool
  command : Option String
deriving DecidableEq, Repr

/-- The external fuzzy matcher `SkimMatcherV2::fuzzy_match`, abstract:
given a candidate string and a query it yields `some score` (i64) on a
match and `none` when the candidate cannot match. -/
abbrev Matcher := String → String → Option Int

/-- Rust `str::to_lowercase`, modelled characterwise (`Char.toLower` over
the string's characters). -/
def str_lower (s : String) : String := ⟨s.data.map Char.toLower⟩

/-- Rust `str::starts_with`, as a character-prefix test. -/
def starts_with (s pre : String) : Bool := pre.data.isPrefixOf s.data

/-- app_search.rs `fuzzy_search`, the `results` local: each candidate's
lower-cased name matched against the lower-cased query, non-matches
dropped (`filter_map` over `fuzzy_match(...).map(|score| (score, app))`). -/
def fuzzy_scored (m : Matcher) (apps : List Application) (query : String) :
    List (Int × Application) :=
  apps.filterMap fun app =>
    (m (str_lower app.name) (str_lower query)).map fun score => (score, app)

/-- app_search.rs `fuzzy_search`: empty query returns the input unchanged;
otherwise the scored candidates are sorted descending by score
(`sort_by(|a, b| b.0.cmp(&a.0))`, a stable sort, modelled by insertion
sort) and the scores are dropped. -/
def fuzzy_search (m : Matcher) (apps : List Application) (query : String) :
    List Application :=
  if query = "" then apps
  else
    (List.insertionSort (fun a b => b.1 ≤ a.1)
      (fuzzy_scored m apps query)).map fun p => p.2

/-- system_commands.rs: `struct SystemCommand { name, command }`. -/
structure SystemCommand where
  name : String
  command : String
deriving DecidableEq, Repr

/-- system_commands.rs `get_system_commands`: the fixed command table. -/
def get_system_commands : List SystemCommand :=
  [⟨"Shutdown", "osascript -e 'tell app \"System Events\" to shut down'"⟩,
   ⟨"Reboot", "osascript -e 'tell app \"System Events\" to restart'"⟩,
   ⟨"Sleep", "osascript -e 'tell app \"System Events\" to sleep'"⟩,
   ⟨"Lock Screen", "pmset displaysleepnow"⟩]

/-- system_commands.rs `search_commands`: empty query maps the whole table
to `Run` results verbatim; otherwise the table is fuzzy-matched on `name`
(no lower-casing here), sorted descending by score, and mapped to `Run`
results with `path` holding the command string. -/
def search_commands (m : Matcher) (query : String) : List SearchResult :=
  if query = "" then
    get_system_commands.map fun cmd => ⟨cmd.name, cmd.command, SearchMode.Run⟩
  else
    let scored : List (SystemCommand × Int) :=
      get_system_commands.filterMap fun cmd =>
        (m cmd.name query).map fun score => (cmd, score)
    let sorted := List.insertionSort (fun a b => b.2 ≤ a.2) scored
    sorted.map fun p => ⟨p.1.name, p.1.command, SearchMode.Run⟩

/-- app_search.rs `index_applications`, cache-side state: `elapsedSecs` is
`some e` when `fs::metadata`, `modified()` and `elapsed()` all succeed for
the cache file (`e` the age in whole seconds), `none` when any of them
fails; `contents` is the result of `load_cache()` (deserialization). -/
structure CacheState where
  elapsedSecs : Option Nat
  contents : Option (List Application)
deriving DecidableEq, Repr

/-- app_search.rs `index_applications` lines 17-29: the cache is fresh
when its age in seconds is `< 3600`; any metadata failure means stale. -/
def cache_fresh (c : CacheState) : Bool :=
  match c.elapsedSecs with
  | some e => e < 3600
  | none => false

/-- app_search.rs `index_applications` line 65: the scanned applications
are sorted lexicographically by name (`sort_by(|a, b| a.name.cmp(&b.name))`,
a stable sort, modelled here by insertion sort which agrees with every
stable sort). -/
def scan_and_sort (scanned : List Application) : List Application :=
  List.insertionSort (fun a b => a.name ≤ b.name) scanned

/-- app_search.rs `index_applications`: if the cache is fresh and loads, it
is returned; otherwise the directory scan (given here as the raw list of
scanned applications) is sorted and returned (the cache write is a
side-effect outside this model). -/
def index_applications (c : CacheState) (scanned : List Application) :
    List Application :=
  if cache_fresh c then
    match c.contents with
    | some cached => cached
    | none => scan_and_sort scanned
  else scan_and_sort scanned

/-- ui.rs: the selection/navigation state stored in `DelegateData`:
`filtered` (the displayed results) and `selected_index`. -/
structure SessionState where
  filtered : List SearchResult
  selected_index : Nat
deriving DecidableEq, Repr

/-- ui.rs lines 304-311, the `moveDown:` handler: increment by one only
when `selected_idx < filtered_count.saturating_sub(1)` (Nat subtraction is
saturating). -/
def move_down (s : SessionState) : SessionState :=
  if s.selected_index < s.filtered.length - 1 then
    { s with selected_index := s.selected_index + 1 }
  else s

/-- ui.rs lines 416-422, the `moveUp:` handler: decrement by one only when
`selected_idx > 0`. -/
def move_up (s : SessionState) : SessionState :=
  if 0 < s.selected_index then
    { s with selected_index := s.selected_index - 1 }
  else s

/-- ui.rs `control_text_view_do_command_by_selector`, selection part: only
the selectors `"moveDown:"` and `"moveUp:"` change the selection; every
other selector leaves the state unchanged (the handler returns `NO`,
performing no selection change). -/
def handle_selector (sel : String) (s : SessionState) : SessionState :=
  if sel = "moveDown:" then move_down s
  else if sel = "moveUp:" then move_up s
  else s

/-- ui.rs: the events that mutate the selection/navigation state.
`queryChanged` is `control_text_did_change` storing a freshly computed
result list (lines 107-108); `modeChanged` is `button_clicked` doing the
same (lines 646-647); `hover` is `mouse_entered` writing the hovered row's
index (line 812). -/
inductive SessionEvent where
  | queryChanged (newFiltered : List SearchResult)
  | modeChanged (newFiltered : List SearchResult)
  | moveDownKey
  | moveUpKey
  | hover (i : Nat)
deriving DecidableEq, Repr

/-- One event step of the ui.rs selection/navigation state. -/
def step (s : SessionState) : SessionEvent → SessionState
  | SessionEvent.queryChanged l => ⟨l, 0⟩
  | SessionEvent.modeChanged l => ⟨l, 0⟩
  | SessionEvent.moveDownKey => move_down s
  | SessionEvent.moveUpKey => move_up s
  | SessionEvent.hover i => { s with selected_index := i }

/-- Run a sequence of events from a state. -/
def run_events (s : SessionState) : List SessionEvent → SessionState
  | [] => s
  | e :: es => run_events (step s e) es

/-- An event the UI can actually deliver: a hover index always comes from
the `rowIndex` ivar of a cell view, and ui.rs builds exactly one cell per
element of `filtered` (`for (index, result) in filtered.iter().enumerate()`),
so hover indices are below `filtered.len()`. -/
def valid_event (s : SessionState) : SessionEvent → Bool
  | SessionEvent.hover i => i < s.filtered.length
  | _ => true

/-- A trace of events, each valid in the state where it fires. -/
def valid_trace (s : SessionState) : List SessionEvent → Bool
  | [] => true
  | e :: es => valid_event s e && valid_trace (step s e) es

/-- The claimed selection invariant: index 0 (inert) on an empty result
set, in range otherwise. -/
def session_inv (s : SessionState) : Prop :=
  (s.filtered = [] → s.selected_index = 0) ∧
  (s.filtered ≠ [] → s.selected_index < s.filtered.length)

/-- ui.rs `LaunchAction`s performed on activation: open a path via
NSWorkspace, spawn `sh -c cmd`, or terminate the app. -/
inductive LaunchAction where
  | openFile (path : String)
  | shellCommand (cmd : String)
  | terminate
deriving DecidableEq, Repr

/-- ui.rs lines 271-291 and 867-885: the mode-dependent action list for a
result, always followed by `terminate:`. -/
def activate_result (r : SearchResult) : List LaunchAction :=
  match r.result_type with
  | SearchMode.Apps => [LaunchAction.openFile r.path, LaunchAction.terminate]
  | SearchMode.Files => [LaunchAction.openFile r.path, LaunchAction.terminate]
  | SearchMode.Run => [LaunchAction.shellCommand r.path, LaunchAction.terminate]

/-- ui.rs lines 264-293, the `insertNewline:` (Enter) handler:
`filtered.get(selected_idx)` guards the launch; out of range does nothing. -/
def on_enter (s : SessionState) : SessionState × List LaunchAction :=
  match s.filtered[s.selected_index]? with
  | some r => (s, activate_result r)
  | none => (s, [])

/-- ui.rs lines 829-890, the `mouseDown:` handler: `filtered.get(row_index)`
guards the launch; out of range does nothing. -/
def on_mouse_down (s : SessionState) (row : Nat) :
    SessionState × List LaunchAction :=
  match s.filtered[row]? with
  | some r => (s, activate_result r)
  | none => (s, [])

/-- A concrete filtered result set of length 12 for the grid scenarios. -/
def filtered12 : List SearchResult :=
  List.replicate 12 ⟨"a", "a", SearchMode.Apps⟩

/-- A filesystem entry as seen by file_search.rs: its file name, its
canonical path (`entry.path().canonicalize()`, modelled as always
succeeding), and for a directory its entries in enumeration order. -/
inductive FSEntry where
  | file (name : String) (path : String)
  | dir (name : String) (path : String) (children : List FSEntry)

/-- The entry's file name. -/
def FSEntry.name : FSEntry → String
  | FSEntry.file n _ => n
  | FSEntry.dir n _ _ => n

/-- The entry's canonical path. -/
def FSEntry.path : FSEntry → String
  | FSEntry.file _ p => p
  | FSEntry.dir _ p _ => p

/-- file_search.rs lines 40-44: hidden files/directories and the system
directories `Library`, `node_modules`, `target` are skipped. -/
def skip_name (name : String) : Bool :=
  starts_with name "." || name == "Library" || name == "node_modules" ||
    name == "target"

/-- Rust `str::contains`: `pat` occurs as a contiguous substring. -/
def contains_chars (pat : List Char) : List Char → Bool
  | [] => pat.isEmpty
  | c :: rest => pat.isPrefixOf (c :: rest) || contains_chars pat rest

/-- Rust `s.contains(&pat)` on Lean strings. -/
def string_contains (s pat : String) : Bool :=
  contains_chars pat.toList s.toList

/-- file_search.rs `search_recursive` lines 48-57: the conditional push of
one entry, a case-insensitive substring match of the entry's name against
the query. -/
def push_match (q : String) (e : FSEntry) (res : List SearchResult) :
    List SearchResult :=
  if string_contains (str_lower e.name) (str_lower q) then
    res ++ [⟨e.name, e.path, SearchMode.Files⟩]
  else res

/-- file_search.rs `search_recursive` lines 30-72, the `for entry in
entries` loop over one directory's entries: stop when `max_results` is
reached, skip entries by name, record case-insensitive substring matches
(`push_match`), and recurse into subdirectories (the recursive call's
entry guard from line 22 is inlined at the call site). -/
def search_entries (q : String) (maxR maxD : Nat) (l : List FSEntry)
    (depth : Nat) (res : List SearchResult) : List SearchResult :=
  match l with
  | [] => res
  | e :: rest =>
    if maxR ≤ res.length then res
    else if skip_name e.name then search_entries q maxR maxD rest depth res
    else
      match e with
      | FSEntry.file _ _ =>
        search_entries q maxR maxD rest depth (push_match q e res)
      | FSEntry.dir _ _ children =>
        search_entries q maxR maxD rest depth
          (if maxR ≤ (push_match q e res).length ∨ maxD < depth + 1 then
             push_match q e res
           else search_entries q maxR maxD children (depth + 1) (push_match q e res))
termination_by sizeOf l
decreasing_by all_goals (simp_wf <;> omega)

/-- file_search.rs `search_recursive`: the entry guard of line 22 followed
by the directory loop. -/
def search_recursive (q : String) (maxR maxD : Nat) (entries : List FSEntry)
    (depth : Nat) (res : List SearchResult) : List SearchResult :=
  if maxR ≤ res.length ∨ maxD < depth then res
  else search_entries q maxR maxD entries depth res

/-- file_search.rs `search_files`, the `scored` local: each raw match's
name fuzzy-scored against the query (no lower-casing here), non-matches
dropped. -/
def files_scored (m : Matcher) (results : List SearchResult) (query : String) :
    List (SearchResult × Int) :=
  results.filterMap fun r => (m r.name query).map fun s => (r, s)

/-- file_search.rs `search_files`: empty query returns immediately;
otherwise walk the home tree (cap 50 raw matches, max depth 4), fuzzy-score
the raw matches, sort descending by score (stable `sort_by`, modelled by
insertion sort) and keep the first 8. -/
def search_files (m : Matcher) (home : List FSEntry) (query : String) :
    List SearchResult :=
  if query = "" then []
  else
    ((List.insertionSort (fun a b => b.2 ≤ a.2)
        (files_scored m (search_recursive query 50 4 home 0 []) query)).map
      fun p => p.1).take 8

/-- The opaque-subtree prune of the skip rule: entries with a skipped name
are removed together with their whole subtree. -/
def prune_entries : List FSEntry → List FSEntry
  | [] => []
  | FSEntry.file n p :: rest =>
    if skip_name n then prune_entries rest
    else FSEntry.file n p :: prune_entries rest
  | FSEntry.dir n p c :: rest =>
    if skip_name n then prune_entries rest
    else FSEntry.dir n p (prune_entries c) :: prune_entries rest
termination_by l => sizeOf l
decreasing_by all_goals (simp_wf <;> omega)

/-- file_search.rs `search_files_random` lines 119-137, the inner loop over
one directory: skip dotfiles, record everything else, break at 20. -/
def collect_nonhidden (entries : List FSEntry) (res : List SearchResult) :
    List SearchResult :=
  match entries with
  | [] => res
  | e :: rest =>
    if starts_with e.name "." then collect_nonhidden rest res
    else
      let res1 := res ++ [⟨e.name, e.path, SearchMode.Files⟩]
      if 20 ≤ res1.length then res1 else collect_nonhidden rest res1

/-- file_search.rs `search_files_random`, the outer loop over
`{Documents, Downloads, Desktop}` with the 20-entry short-circuit. -/
def collect_dirs (dirs : List (List FSEntry)) (res : List SearchResult) :
    List SearchResult :=
  match dirs with
  | [] => res
  | d :: rest =>
    let res1 := collect_nonhidden d res
    if 20 ≤ res1.length then res1 else collect_dirs rest res1

/-- file_search.rs `search_files_random`: first `count` of the capped set. -/
def search_files_random (dirs : List (List FSEntry)) (count : Nat) :
    List SearchResult :=
  (collect_dirs dirs []).take count

/-- ui.rs `control_text_did_change` lines 69-104: the per-keystroke
filtering. The mode is the sticky `data.search_mode`; the raw query is
passed to the provider unchanged. The empty-query Apps shuffle
(`rand::thread_rng`) is abstracted as the `shuffle` parameter. -/
def compute_filtered (m : Matcher) (shuffle : List Application → List Application)
    (home : List FSEntry) (dirs : List (List FSEntry))
    (apps : List Application) (mode : SearchMode) (query : String) :
    List SearchResult :=
  match mode with
  | SearchMode.Apps =>
    if query = "" then
      ((shuffle apps).take 4).map fun app => ⟨app.name, app.path, SearchMode.Apps⟩
    else
      ((fuzzy_search m apps query).take 8).map fun app =>
        ⟨app.name, app.path, SearchMode.Apps⟩
  | SearchMode.Files =>
    if query = "" then search_files_random dirs 4 else search_files m home query
  | SearchMode.Run => search_commands m query

/-- A concrete matcher instance that scores every candidate 1. -/
def m_const : Matcher := fun _ _ => some 1

/-- A concrete matcher instance scoring a candidate by its length. -/
def m_len : Matcher := fun n _ => some (n.length : Int)

/-- A concrete candidate list for the routing counterexample. -/
def apps_slash : List Application := [⟨"slash", "p", false, none⟩]

/-- Concrete candidates for the ranker-ordering witness. -/
def apps_two : List Application :=
  [⟨"ab", "p1", false, none⟩, ⟨"c", "p2", false, none⟩]

/-- A concrete home tree: one matching file and one skipped `Library`
directory containing another match. -/
def home_tree : List FSEntry :=
  [FSEntry.file "doc" "hdoc",
   FSEntry.dir "Library" "hlib" [FSEntry.file "docL" "x"]]

/-- Helper: a single valid event preserves the selection invariant. -/
theorem session_inv_step :
    ∀ (s : SessionState) (e : SessionEvent),
      session_inv s → valid_event s e = true → session_inv (step s e) := by
  intro s e hs he
  obtain ⟨fl, idx⟩ := s
  obtain ⟨h0, hlt⟩ := hs
  have h0 : fl = [] → idx = 0 := h0
  have hlt : fl ≠ [] → idx < fl.length := hlt
  cases e with
  | queryChanged l => exact ⟨fun _ => rfl, fun h => List.length_pos.mpr h⟩
  | modeChanged l => exact ⟨fun _ => rfl, fun h => List.length_pos.mpr h⟩
  | moveDownKey =>
    simp only [step, move_down]
    by_cases h : idx < fl.length - 1
    · rw [if_pos h]
      refine ⟨fun hemp => ?_, fun hne => ?_⟩
      · subst hemp; simp at h
      · simp only; omega
    · rw [if_neg h]; exact ⟨h0, hlt⟩
  | moveUpKey =>
    simp only [step, move_up]
    by_cases h : 0 < idx
    · rw [if_pos h]
      refine ⟨fun hemp => ?_, fun hne => ?_⟩
      · have := h0 hemp; show idx - 1 = 0; omega
      · have := hlt hne; show idx - 1 < fl.length; omega
    · rw [if_neg h]; exact ⟨h0, hlt⟩
  | hover i =>
    simp only [valid_event, decide_eq_true_eq] at he
    refine ⟨fun hemp => ?_, fun _ => he⟩
    subst hemp; simp at he

/-- C9: every wholesale replacement of the filtered set (query change or
mode change) resets `selected_index` to 0; and along any trace of UI
events the selection invariant holds: the index is in range when
`filtered` is non-empty and 0 when it is empty. -/
theorem selected_index_invariant :
    (∀ (s : SessionState) (l : List SearchResult),
        (step s (SessionEvent.queryChanged l)).selected_index = 0 ∧
        (step s (SessionEvent.modeChanged l)).selected_index = 0) ∧
    (∀ (s : SessionState) (es : List SessionEvent),
        session_inv s → valid_trace s es = true →
        session_inv (run_events s es)) := by
  constructor
  · intro s l; exact ⟨rfl, rfl⟩
  · intro s es
    induction es generalizing s with
    | nil => intro hs _; exact hs
    | cons e es ih =>
      intro hs ht
      simp only [valid_trace, Bool.and_eq_true] at ht
      exact ih (step s e) (session_inv_step s e hs ht.1) ht.2

/-- C9 witness: the invariant theorem applied to a concrete one-element
session and a concrete valid trace. -/
theorem selected_index_invariant_witness :
    session_inv ⟨[⟨"a", "a", SearchMode.Apps⟩], 0⟩ ∧
    valid_trace ⟨[⟨"a", "a", SearchMode.Apps⟩], 0⟩
      [SessionEvent.moveDownKey, SessionEvent.hover 0,
       SessionEvent.queryChanged []] = true ∧
    session_inv (run_events ⟨[⟨"a", "a", SearchMode.Apps⟩], 0⟩
      [SessionEvent.moveDownKey, SessionEvent.hover 0,
       SessionEvent.queryChanged []]) :=
  ⟨⟨fun h => by simp at h, fun _ => Nat.one_pos⟩, by decide,
   selected_index_invariant.2 ⟨[⟨"a", "a", SearchMode.Apps⟩], 0⟩
     [SessionEvent.moveDownKey, SessionEvent.hover 0,
      SessionEvent.queryChanged []]
     ⟨fun h => by simp at h, fun _ => Nat.one_pos⟩ (by decide)⟩

/-- C10: activating with the selected index (Enter) or a clicked row
(mouse) out of range of `filtered` — in particular on an empty filtered
list — performs no launch action, signals no termination, and leaves the
session state unchanged. -/
theorem activation_out_of_range_noop :
    ∀ (s : SessionState) (row : Nat),
      s.filtered.length ≤ s.selected_index → s.filtered.length ≤ row →
      on_enter s = (s, []) ∧ on_mouse_down s row = (s, []) := by
  intro s row h1 h2
  constructor
  · unfold on_enter
    rw [List.getElem?_eq_none h1]
  · unfold on_mouse_down
    rw [List.getElem?_eq_none h2]

/-- C10 witness: the theorem applied to the empty filtered list. -/
theorem activation_out_of_range_noop_witness :
    (([] : List SearchResult).length ≤ 3) ∧
    (([] : List SearchResult).length ≤ 0) ∧
    (on_enter ⟨[], 3⟩ = (⟨[], 3⟩, []) ∧ on_mouse_down ⟨[], 3⟩ 0 = (⟨[], 3⟩, [])) :=
  ⟨by decide, by decide,
   activation_out_of_range_noop ⟨[], 3⟩ 0 (by decide) (by decide)⟩

/-- C1 counterexample: in a 12-element filtered list there is no grid
wraparound: `moveUp:` from index 1 yields 0, not 11, and the `moveRight:`
selector is not handled at all, leaving index 11 unchanged instead of
wrapping to 0. -/
theorem no_grid_wraparound_counterexample :
    (handle_selector "moveUp:" ⟨filtered12, 1⟩).selected_index = 0 ∧
    (0 : Nat) ≠ 11 ∧
    (handle_selector "moveRight:" ⟨filtered12, 11⟩).selected_index = 11 ∧
    (11 : Nat) ≠ 0 := by
  decide

/-- C1 amended: selection movement ignores the grid and does not wrap:
`moveRight:` and `moveLeft:` are unhandled (state unchanged), `moveUp:`
decrements by one clamped at 0, and in the length-12 list `moveDown:`
moves by one clamped at the end (11 stays 11, 3 goes to 4), `moveUp:`
from 1 yields 0. -/
theorem arrow_key_movement_clamped :
    (∀ s : SessionState, handle_selector "moveRight:" s = s) ∧
    (∀ s : SessionState, handle_selector "moveLeft:" s = s) ∧
    (∀ s : SessionState,
        (handle_selector "moveUp:" s).selected_index = s.selected_index - 1) ∧
    (handle_selector "moveRight:" ⟨filtered12, 11⟩).selected_index = 11 ∧
    (handle_selector "moveLeft:" ⟨filtered12, 0⟩).selected_index = 0 ∧
    (handle_selector "moveUp:" ⟨filtered12, 1⟩).selected_index = 0 ∧
    (handle_selector "moveDown:" ⟨filtered12, 3⟩).selected_index = 4 ∧
    (handle_selector "moveDown:" ⟨filtered12, 11⟩).selected_index = 11 := by
  refine ⟨fun s => rfl, fun s => rfl, fun s => ?_, by decide, by decide,
    by decide, by decide, by decide⟩
  show (move_up s).selected_index = s.selected_index - 1
  unfold move_up
  by_cases h : 0 < s.selected_index
  · rw [if_pos h]
  · rw [if_neg h]; omega

/-- C3 counterexample: a cache aged 1801 seconds is still considered fresh
(1801 < 3600), so `index_applications` returns the cached list and does
not perform a fresh scan. -/
theorem cache_age_1801_returns_cache :
    index_applications ⟨some 1801, some [⟨"Cached", "c", false, none⟩]⟩
        [⟨"Scanned", "s", false, none⟩] = [⟨"Cached", "c", false, none⟩] ∧
    ([⟨"Cached", "c", false, none⟩] : List Application) ≠
      scan_and_sort [⟨"Scanned", "s", false, none⟩] := by
  constructor
  · rfl
  · decide

/-- C3 amended: the 3600-second threshold is respected, and a cache aged
1801s is on the fresh side of it: at ages 1801s and 3599s the deserialized
cache is returned; at 3601s a fresh scan supersedes it. -/
theorem index_applications_cache_freshness :
    ∀ (cached scanned : List Application),
      index_applications ⟨some 1801, some cached⟩ scanned = cached ∧
      index_applications ⟨some 3599, some cached⟩ scanned = cached ∧
      index_applications ⟨some 3601, some cached⟩ scanned =
        scan_and_sort scanned := by
  intro cached scanned
  exact ⟨rfl, rfl, rfl⟩

/-- C4: for every matcher and every candidate list, `fuzzy_search` with the
empty query returns the input list itself, same elements in the same
order. -/
theorem fuzzy_search_empty_query_identity :
    ∀ (m : Matcher) (apps : List Application), fuzzy_search m apps "" = apps := by
  intro m apps
  rfl

/-- C8: `search_commands` on the empty query returns the four command-table
entries verbatim, in table order, each tagged `Run` with `path` set to the
entry's shell-command string. -/
theorem search_commands_empty_query :
    ∀ m : Matcher,
      search_commands m "" =
        [⟨"Shutdown", "osascript -e 'tell app \"System Events\" to shut down'",
           SearchMode.Run⟩,
         ⟨"Reboot", "osascript -e 'tell app \"System Events\" to restart'",
           SearchMode.Run⟩,
         ⟨"Sleep", "osascript -e 'tell app \"System Events\" to sleep'",
           SearchMode.Run⟩,
         ⟨"Lock Screen", "pmset displaysleepnow", SearchMode.Run⟩] := by
  intro m
  rfl

/-- Unfolding equation: the directory loop on an empty entry list. -/
theorem search_entries_nil (q : String) (maxR maxD depth : Nat)
    (res : List SearchResult) : search_entries q maxR maxD [] depth res = res := by
  rw [search_entries.eq_def]

/-- Unfolding equation: the directory loop on a non-empty entry list. -/
theorem search_entries_cons (q : String) (maxR maxD : Nat) (e : FSEntry)
    (rest : List FSEntry) (depth : Nat) (res : List SearchResult) :
    search_entries q maxR maxD (e :: rest) depth res =
      if maxR ≤ res.length then res
      else if skip_name e.name then search_entries q maxR maxD rest depth res
      else
        match e with
        | FSEntry.file _ _ =>
          search_entries q maxR maxD rest depth (push_match q e res)
        | FSEntry.dir _ _ children =>
          search_entries q maxR maxD rest depth
            (if maxR ≤ (push_match q e res).length ∨ maxD < depth + 1 then
               push_match q e res
             else search_entries q maxR maxD children (depth + 1)
               (push_match q e res)) := by
  rw [search_entries.eq_def]

/-- Once the result cap is reached the loop returns its accumulator. -/
theorem search_entries_cap (q : String) (maxR maxD : Nat) (l : List FSEntry)
    (depth : Nat) (res : List SearchResult) (h : maxR ≤ res.length) :
    search_entries q maxR maxD l depth res = res := by
  cases l with
  | nil => exact search_entries_nil q maxR maxD depth res
  | cons e rest => rw [search_entries_cons, if_pos h]

/-- The conditional push appends at most one entry, and only a non-skipped
`Files`-typed one. -/
theorem push_match_appends (q : String) (e : FSEntry) (res : List SearchResult)
    (h : skip_name e.name = false) :
    ∃ t, push_match q e res = res ++ t ∧
      ∀ r ∈ t, skip_name r.name = false ∧ r.result_type = SearchMode.Files := by
  unfold push_match
  by_cases hc : string_contains (str_lower e.name) (str_lower q) = true
  · refine ⟨[⟨e.name, e.path, SearchMode.Files⟩], by rw [if_pos hc], ?_⟩
    intro r hr
    simp only [List.mem_singleton] at hr
    subst hr
    exact ⟨h, rfl⟩
  · exact ⟨[], by rw [if_neg hc, List.append_nil], by simp⟩

/-- The directory loop only appends to its accumulator, and everything it
appends has a non-skipped name and result type `Files`. -/
theorem search_entries_appends (q : String) (maxR maxD : Nat) :
    ∀ (l : List FSEntry) (depth : Nat) (res : List SearchResult),
      ∃ t, search_entries q maxR maxD l depth res = res ++ t ∧
        ∀ r ∈ t, skip_name r.name = false ∧ r.result_type = SearchMode.Files := by
  intro l depth res
  induction l, depth, res using search_entries.induct q maxR maxD with
  | case1 depth res =>
    exact ⟨[], by rw [search_entries_nil, List.append_nil], by simp⟩
  | case2 depth res e rest hcap =>
    exact ⟨[], by rw [search_entries_cap q maxR maxD _ _ _ hcap,
      List.append_nil], by simp⟩
  | case3 depth res e rest hcap hskip ih =>
    obtain ⟨t, ht, hp⟩ := ih
    refine ⟨t, ?_, hp⟩
    rw [search_entries_cons, if_neg hcap, if_pos hskip, ht]
  | case4 depth res rest hcap n path hskip ih =>
    obtain ⟨t1, ht1, hp1⟩ := ih
    have hsk : skip_name (FSEntry.file n path).name = false := by
      simpa using hskip
    obtain ⟨t0, ht0, hp0⟩ := push_match_appends q (FSEntry.file n path) res hsk
    refine ⟨t0 ++ t1, ?_, ?_⟩
    · rw [search_entries_cons, if_neg hcap, if_neg hskip]
      show search_entries q maxR maxD rest depth
        (push_match q (FSEntry.file n path) res) = res ++ (t0 ++ t1)
      rw [ht1, ht0, List.append_assoc]
    · intro r hr
      rcases List.mem_append.mp hr with h | h
      exacts [hp0 r h, hp1 r h]
  | case5 depth res rest hcap n path children hskip ihc ihr =>
    obtain ⟨t2, ht2, hp2⟩ := ihc
    simp only [dite_eq_ite] at ihr
    obtain ⟨t3, ht3, hp3⟩ := ihr
    have hsk : skip_name (FSEntry.dir n path children).name = false := by
      simpa using hskip
    obtain ⟨t0, ht0, hp0⟩ := push_match_appends q (FSEntry.dir n path children) res hsk
    by_cases hg : maxR ≤ (push_match q (FSEntry.dir n path children) res).length ∨
        maxD < depth + 1
    · rw [if_pos hg] at ht3
      refine ⟨t0 ++ t3, ?_, ?_⟩
      · rw [search_entries_cons, if_neg hcap, if_neg hskip]
        show search_entries q maxR maxD rest depth
          (if maxR ≤ (push_match q (FSEntry.dir n path children) res).length ∨
              maxD < depth + 1 then
            push_match q (FSEntry.dir n path children) res
          else search_entries q maxR maxD children (depth + 1)
            (push_match q (FSEntry.dir n path children) res)) = res ++ (t0 ++ t3)
        rw [if_pos hg, ht3, ht0, List.append_assoc]
      · intro r hr
        rcases List.mem_append.mp hr with h | h
        exacts [hp0 r h, hp3 r h]
    · rw [if_neg hg] at ht3
      refine ⟨t0 ++ (t2 ++ t3), ?_, ?_⟩
      · rw [search_entries_cons, if_neg hcap, if_neg hskip]
        show search_entries q maxR maxD rest depth
          (if maxR ≤ (push_match q (FSEntry.dir n path children) res).length ∨
              maxD < depth + 1 then
            push_match q (FSEntry.dir n path children) res
          else search_entries q maxR maxD children (depth + 1)
            (push_match q (FSEntry.dir n path children) res)) =
            res ++ (t0 ++ (t2 ++ t3))
        rw [if_neg hg, ht3, ht2, ht0]
        simp [List.append_assoc]
      · intro r hr
        rcases List.mem_append.mp hr with h | h
        · exact hp0 r h
        · rcases List.mem_append.mp h with h2 | h2
          exacts [hp2 r h2, hp3 r h2]

/-- Unfolding equation: pruning the empty entry list. -/
theorem prune_entries_nil : prune_entries [] = [] := by
  rw [prune_entries.eq_def]

/-- Unfolding equation: pruning a file entry. -/
theorem prune_entries_cons_file (n p : String) (rest : List FSEntry) :
    prune_entries (FSEntry.file n p :: rest) =
      if skip_name n then prune_entries rest
      else FSEntry.file n p :: prune_entries rest := by
  rw [prune_entries.eq_def]

/-- Unfolding equation: pruning a directory entry. -/
theorem prune_entries_cons_dir (n p : String) (c rest : List FSEntry) :
    prune_entries (FSEntry.dir n p c :: rest) =
      if skip_name n then prune_entries rest
      else FSEntry.dir n p (prune_entries c) :: prune_entries rest := by
  rw [prune_entries.eq_def]

/-- Skipped entries are opaque subtree prunes: removing them (with their
whole subtrees) from the tree does not change what the loop collects. -/
theorem search_entries_prune (q : String) (maxR maxD : Nat) :
    ∀ (l : List FSEntry) (depth : Nat) (res : List SearchResult),
      search_entries q maxR maxD (prune_entries l) depth res =
        search_entries q maxR maxD l depth res := by
  intro l depth res
  induction l, depth, res using search_entries.induct q maxR maxD with
  | case1 depth res => rw [prune_entries_nil]
  | case2 depth res e rest hcap =>
    rw [search_entries_cap q maxR maxD _ _ _ hcap,
      search_entries_cap q maxR maxD _ _ _ hcap]
  | case3 depth res e rest hcap hskip ih =>
    cases e with
    | file n p =>
      have hn : skip_name n = true := by simpa [FSEntry.name] using hskip
      rw [prune_entries_cons_file, if_pos hn, ih, search_entries_cons,
        if_neg hcap, if_pos hskip]
    | dir n p c =>
      have hn : skip_name n = true := by simpa [FSEntry.name] using hskip
      rw [prune_entries_cons_dir, if_pos hn, ih, search_entries_cons,
        if_neg hcap, if_pos hskip]
  | case4 depth res rest hcap n path hskip ih =>
    have hn : ¬skip_name n = true := by simpa [FSEntry.name] using hskip
    rw [prune_entries_cons_file, if_neg hn, search_entries_cons,
      if_neg hcap, if_neg hskip]
    show search_entries q maxR maxD (prune_entries rest) depth
      (push_match q (FSEntry.file n path) res) =
      search_entries q maxR maxD (FSEntry.file n path :: rest) depth res
    rw [ih, search_entries_cons, if_neg hcap, if_neg hskip]
  | case5 depth res rest hcap n path children hskip ihc ihr =>
    have hn : ¬skip_name n = true := by simpa [FSEntry.name] using hskip
    simp only [dite_eq_ite] at ihr
    have hpm : push_match q (FSEntry.dir n path (prune_entries children)) res =
        push_match q (FSEntry.dir n path children) res := rfl
    rw [prune_entries_cons_dir, if_neg hn, search_entries_cons, if_neg hcap,
      if_neg (show ¬skip_name (FSEntry.dir n path (prune_entries children)).name = true
        from hn)]
    show search_entries q maxR maxD (prune_entries rest) depth
      (if maxR ≤ (push_match q (FSEntry.dir n path (prune_entries children)) res).length ∨
          maxD < depth + 1 then
        push_match q (FSEntry.dir n path (prune_entries children)) res
      else search_entries q maxR maxD (prune_entries children) (depth + 1)
        (push_match q (FSEntry.dir n path (prune_entries children)) res)) =
      search_entries q maxR maxD (FSEntry.dir n path children :: rest) depth res
    rw [hpm, ihc, ihr, search_entries_cons, if_neg hcap, if_neg hskip]

/-- The opaque-subtree prune property lifted to `search_recursive`. -/
theorem search_recursive_prune (q : String) (maxR maxD : Nat)
    (entries : List FSEntry) (depth : Nat) (res : List SearchResult) :
    search_recursive q maxR maxD (prune_entries entries) depth res =
      search_recursive q maxR maxD entries depth res := by
  unfold search_recursive
  by_cases hg : maxR ≤ res.length ∨ maxD < depth
  · rw [if_pos hg, if_pos hg]
  · rw [if_neg hg, if_neg hg, search_entries_prune]

/-- Every result of `search_files` comes out of the directory walk: it has
a non-skipped name and result type `Files`. -/
theorem mem_search_files_spec (m : Matcher) (home : List FSEntry) (q : String)
    (r : SearchResult) (hr : r ∈ search_files m home q) :
    skip_name r.name = false ∧ r.result_type = SearchMode.Files := by
  by_cases hq : q = ""
  · simp only [search_files, if_pos hq] at hr
    simp at hr
  · simp only [search_files, if_neg hq] at hr
    have h1 := List.mem_of_mem_take hr
    obtain ⟨p, hp, hpe⟩ := List.mem_map.mp h1
    have hp2 : p ∈ files_scored m (search_recursive q 50 4 home 0 []) q :=
      (List.perm_insertionSort _ _).mem_iff.mp hp
    obtain ⟨r0, hr0, hmap⟩ := List.mem_filterMap.mp hp2
    obtain ⟨s, _, hps⟩ := Option.map_eq_some'.mp hmap
    have hr0r : r0 = r := by rw [← hpe, ← hps]
    subst hr0r
    have hguard : ¬(50 ≤ ([] : List SearchResult).length ∨ (4 : Nat) < 0) := by
      simp
    rw [search_recursive, if_neg hguard] at hr0
    obtain ⟨t, ht, hp'⟩ := search_entries_appends q 50 4 home 0 []
    rw [ht, List.nil_append] at hr0
    exact hp' r0 hr0

/-- C6: for every matcher, home tree and query, `search_files` returns at
most 8 results, and the empty query returns the empty sequence
immediately. -/
theorem search_files_bounded :
    ∀ (m : Matcher) (home : List FSEntry) (q : String),
      (search_files m home q).length ≤ 8 ∧ search_files m home "" = [] := by
  intro m home q
  refine ⟨?_, rfl⟩
  by_cases hq : q = ""
  · simp [search_files, hq]
  · simp only [search_files, if_neg hq]
    exact List.length_take_le _ _

/-- C7: the skip rule is an opaque subtree prune: no result of
`search_files` has a skipped name ('.'-prefixed, `Library`, `node_modules`
or `target`), and removing every skipped entry together with its whole
subtree leaves the walk's output unchanged (skipped directories are never
descended into). -/
theorem search_files_skips_pruned :
    (∀ (m : Matcher) (home : List FSEntry) (q : String) (r : SearchResult),
        r ∈ search_files m home q → skip_name r.name = false) ∧
    (∀ (q : String) (maxR maxD : Nat) (home : List FSEntry) (depth : Nat)
        (res : List SearchResult),
        search_recursive q maxR maxD (prune_entries home) depth res =
          search_recursive q maxR maxD home depth res) := by
  constructor
  · intro m home q r hr
    exact (mem_search_files_spec m home q r hr).1
  · intro q maxR maxD home depth res
    exact search_recursive_prune q maxR maxD home depth res

/-- C7 witness: the theorem applied to a concrete tree and query on which
`search_files` returns a concrete non-skipped result. -/
theorem search_files_skips_pruned_witness :
    (⟨"doc", "hdoc", SearchMode.Files⟩ : SearchResult) ∈
        search_files m_const home_tree "doc" ∧
    skip_name (⟨"doc", "hdoc", SearchMode.Files⟩ : SearchResult).name = false := by
  have hm : (⟨"doc", "hdoc", SearchMode.Files⟩ : SearchResult) ∈
      search_files m_const home_tree "doc" := by
    simp +decide [search_files, search_recursive, search_entries, home_tree,
      push_match, skip_name, starts_with, string_contains, contains_chars,
      str_lower, FSEntry.name, FSEntry.path, m_const, files_scored]
  exact ⟨hm, search_files_skips_pruned.1 m_const home_tree "doc" _ hm⟩

/-- Everything the browse loop adds beyond its accumulator is
`Files`-typed. -/
theorem collect_nonhidden_mem :
    ∀ (entries : List FSEntry) (res : List SearchResult) (r : SearchResult),
      r ∈ collect_nonhidden entries res →
      r ∈ res ∨ r.result_type = SearchMode.Files := by
  intro entries
  induction entries with
  | nil => intro res r hr; exact Or.inl hr
  | cons e rest ih =>
    intro res r hr
    rw [collect_nonhidden] at hr
    by_cases hdot : starts_with e.name "." = true
    · rw [if_pos hdot] at hr
      exact ih res r hr
    · rw [if_neg hdot] at hr
      by_cases h20 :
          20 ≤ (res ++ [(⟨e.name, e.path, SearchMode.Files⟩ : SearchResult)]).length
      · rw [if_pos h20] at hr
        rcases List.mem_append.mp hr with h | h
        · exact Or.inl h
        · simp only [List.mem_singleton] at h
          subst h
          exact Or.inr rfl
      · rw [if_neg h20] at hr
        rcases ih _ r hr with h | h
        · rcases List.mem_append.mp h with h2 | h2
          · exact Or.inl h2
          · simp only [List.mem_singleton] at h2
            subst h2
            exact Or.inr rfl
        · exact Or.inr h
    
/-- The outer browse loop over the three directories, same property. -/
theorem collect_dirs_mem :
    ∀ (dirs : List (List FSEntry)) (res : List SearchResult) (r : SearchResult),
      r ∈ collect_dirs dirs res → r ∈ res ∨ r.result_type = SearchMode.Files := by
  intro dirs
  induction dirs with
  | nil => intro res r hr; exact Or.inl hr
  | cons d rest ih =>
    intro res r hr
    rw [collect_dirs] at hr
    by_cases h20 : 20 ≤ (collect_nonhidden d res).length
    · rw [if_pos h20] at hr
      exact collect_nonhidden_mem d res r hr
    · rw [if_neg h20] at hr
      rcases ih _ r hr with h | h
      · exact collect_nonhidden_mem d res r h
      · exact Or.inr h

/-- C2 counterexample: with the sticky mode `Apps` and raw input `"/x"`,
the keystroke handler does not route to `Files` with the sigil stripped:
it queries the Apps provider with `"/x"` unchanged and returns an
`Apps`-typed result. -/
theorem routing_sigil_counterexample :
    compute_filtered m_const id [] [] apps_slash SearchMode.Apps "/x" =
      [⟨"slash", "p", SearchMode.Apps⟩] ∧
    SearchMode.Apps ≠ SearchMode.Files := by
  constructor
  · rfl
  · decide

/-- C2 amended: the mode is not inferred from the input and no sigil is
stripped: every keystroke dispatches on the sticky mode set by the pill
buttons, passing the raw input unchanged to the provider, and every
result's type equals that sticky mode. -/
theorem compute_filtered_type_matches_mode :
    ∀ (m : Matcher) (shuffle : List Application → List Application)
      (home : List FSEntry) (dirs : List (List FSEntry))
      (apps : List Application) (mode : SearchMode) (query : String)
      (r : SearchResult),
      r ∈ compute_filtered m shuffle home dirs apps mode query →
      r.result_type = mode := by
  intro m shuffle home dirs apps mode query r hr
  cases mode with
  | Apps =>
    simp only [compute_filtered] at hr
    by_cases hq : query = ""
    · rw [if_pos hq] at hr
      obtain ⟨a, _, he⟩ := List.mem_map.mp hr
      rw [← he]
    · rw [if_neg hq] at hr
      obtain ⟨a, _, he⟩ := List.mem_map.mp hr
      rw [← he]
  | Files =>
    simp only [compute_filtered] at hr
    by_cases hq : query = ""
    · rw [if_pos hq] at hr
      have h1 := List.mem_of_mem_take hr
      rcases collect_dirs_mem dirs [] r h1 with h | h
      · simp at h
      · exact h
    · rw [if_neg hq] at hr
      exact (mem_search_files_spec m home query r hr).2
  | Run =>
    simp only [compute_filtered] at hr
    simp only [search_commands] at hr
    by_cases hq : query = ""
    · rw [if_pos hq] at hr
      obtain ⟨c, _, he⟩ := List.mem_map.mp hr
      rw [← he]
    · rw [if_neg hq] at hr
      obtain ⟨p, _, he⟩ := List.mem_map.mp hr
      rw [← he]

/-- C2 witness: the amended theorem applied at the sticky mode `Run` with
the empty query and the concrete `Shutdown` result. -/
theorem compute_filtered_type_matches_mode_witness :
    (⟨"Shutdown", "osascript -e 'tell app \"System Events\" to shut down'",
        SearchMode.Run⟩ : SearchResult) ∈
      compute_filtered m_const id [] [] [] SearchMode.Run "" ∧
    (⟨"Shutdown", "osascript -e 'tell app \"System Events\" to shut down'",
        SearchMode.Run⟩ : SearchResult).result_type = SearchMode.Run := by
  have hm : (⟨"Shutdown", "osascript -e 'tell app \"System Events\" to shut down'",
      SearchMode.Run⟩ : SearchResult) ∈
      compute_filtered m_const id [] [] [] SearchMode.Run "" := by decide
  exact ⟨hm,
    compute_filtered_type_matches_mode m_const id [] [] [] SearchMode.Run "" _ hm⟩

/-- C5: for every matcher, candidate list and non-empty query, the output
of `fuzzy_search` is sorted descending by fuzzy score: whenever candidate
`a` appears before candidate `b`, `score(b) <= score(a)` (scores taken on
the lower-cased names, exactly as the ranker computes them). -/
theorem fuzzy_search_sorted_by_score :
    ∀ (m : Matcher) (apps : List Application) (query : String),
      query ≠ "" →
      (fuzzy_search m apps query).Pairwise fun a b =>
        ∀ sa sb, m (str_lower a.name) (str_lower query) = some sa →
          m (str_lower b.name) (str_lower query) = some sb → sb ≤ sa := by
  intro m apps query hq
  simp only [fuzzy_search, if_neg hq]
  rw [List.pairwise_map]
  have hmem : ∀ p ∈ List.insertionSort (fun a b : Int × Application => b.1 ≤ a.1)
      (fuzzy_scored m apps query),
      m (str_lower p.2.name) (str_lower query) = some p.1 := by
    intro p hp
    have hp2 : p ∈ fuzzy_scored m apps query :=
      (List.perm_insertionSort _ _).mem_iff.mp hp
    obtain ⟨a, _, hmap⟩ := List.mem_filterMap.mp hp2
    obtain ⟨s, hs, hps⟩ := Option.map_eq_some'.mp hmap
    rw [← hps]
    exact hs
  have hsorted : (List.insertionSort (fun a b : Int × Application => b.1 ≤ a.1)
      (fuzzy_scored m apps query)).Pairwise (fun a b => b.1 ≤ a.1) := by
    haveI ht : IsTotal (Int × Application) (fun a b => b.1 ≤ a.1) :=
      ⟨fun a b => le_total b.1 a.1⟩
    haveI htr : IsTrans (Int × Application) (fun a b => b.1 ≤ a.1) :=
      ⟨fun a b c h1 h2 => le_trans h2 h1⟩
    exact List.sorted_insertionSort _ _
  refine List.Pairwise.imp_of_mem ?_ hsorted
  intro p p' hp hp' hle sa sb hsa hsb
  have h1 := hmem p hp
  have h2 := hmem p' hp'
  rw [hsa] at h1
  rw [hsb] at h2
  rw [Option.some.inj h1, Option.some.inj h2]
  exact hle

/-- C5 witness: the ordering theorem applied to a concrete matcher and a
concrete two-candidate list with the non-empty query `"z"`. -/
theorem fuzzy_search_sorted_by_score_witness :
    ("z" : String) ≠ "" ∧
    (fuzzy_search m_len apps_two "z").Pairwise fun a b =>
      ∀ sa sb, m_len (str_lower a.name) (str_lower "z") = some sa →
        m_len (str_lower b.name) (str_lower "z") = some sb → sb ≤ sa :=
  ⟨by decide, fuzzy_search_sorted_by_score m_len apps_two "z" (by decide)⟩
